import Mathlib

/-!
A verification development for the `mudcode-rs` bridge (files
`src/parser.rs`, `src/state.rs`, `src/config.rs`, `src/main.rs`,
`src/event.rs`).

Modelling conventions, used throughout:

* A Rust `&str`/`String` is modelled as a `List Char` (a list of Unicode
  scalar values) or, where handler-level code passes strings around, as a
  Lean `String` (whose `data` is exactly such a list).  Rust byte offsets
  are represented by character indices: every offset the modelled code
  computes (`char_indices().nth`, `rfind('\n')`, `rfind(' ')`, positions of
  one-byte ASCII delimiters) falls on a character boundary, and in UTF-8
  the byte-lexicographic order of strings coincides with the
  code-point-lexicographic order, so nothing observable is lost.
* Rust `char::is_whitespace` and the regex class `\s` are modelled by
  `Char.isWhitespace` (the common ASCII whitespace subset), and the
  case-insensitive regex flag `(?i)` as well as `to_ascii_lowercase` by the
  ASCII `Char.toLower`.
* A Rust function that can panic is modelled with an `Option` result where
  `none` stands for the panic.
* `HashMap` fields of the state document are modelled as association lists
  in iteration order; lookup takes the first binding of a key.
* Filesystem access (`Path::exists`, `fs::canonicalize`) is modelled by an
  abstract `FileSystem` record of pure functions; a canonical path is a
  component list, and `Path::starts_with` is component-list prefix.
-/

/-! ## parser.rs: `split_message_for_discord` -/

def DISCORD_MAX_MESSAGE_LENGTH : Nat := 2000

/-- Index of the last occurrence of `c` in `l`, if any (models `str::rfind`
for a one-byte character, with byte offsets read as character indices). -/
def lastIndexOf (c : Char) : List Char → Option Nat
  | [] => none
  | a :: as =>
    match lastIndexOf c as with
    | some i => some (i + 1)
    | none => if a = c then some 0 else none

/-- One iteration of the loop body of `split_message_for_discord`
(`src/parser.rs` lines 17-38): the cut point for the next chunk.
`hard` is the character index of the 2001st character, or the length when
the remainder is short; inside the first 2000 characters the last newline
is preferred when at least 1000 characters precede it, then the last
space, then the hard cut. -/
def chunkEnd (remaining : List Char) : Nat :=
  let hard : Nat :=
    if remaining.length ≤ DISCORD_MAX_MESSAGE_LENGTH then remaining.length
    else DISCORD_MAX_MESSAGE_LENGTH
  if hard = remaining.length then hard
  else
    let searchArea := remaining.take hard
    match lastIndexOf '\n' searchArea with
    | some pos =>
      if DISCORD_MAX_MESSAGE_LENGTH / 2 ≤ pos then pos + 1
      else
        match lastIndexOf ' ' searchArea with
        | some sp => sp + 1
        | none => hard
    | none =>
      match lastIndexOf ' ' searchArea with
      | some sp => sp + 1
      | none => hard

theorem lastIndexOf_lt_length {c : Char} :
    ∀ {l : List Char} {i : Nat}, lastIndexOf c l = some i → i < l.length := by
  intro l
  induction l with
  | nil => intro i h; simp [lastIndexOf] at h
  | cons a as ih =>
    intro i h
    simp only [lastIndexOf] at h
    cases hr : lastIndexOf c as with
    | some j =>
      rw [hr] at h
      cases h
      have := ih hr
      simp only [List.length_cons]
      omega
    | none =>
      rw [hr] at h
      by_cases hac : a = c
      · simp [hac] at h
        cases h
        simp
      · simp [hac] at h

theorem chunkEnd_pos {l : List Char} (h : l ≠ []) : 0 < chunkEnd l := by
  have hlen : 0 < l.length := List.length_pos.mpr h
  unfold chunkEnd
  by_cases hle : l.length ≤ DISCORD_MAX_MESSAGE_LENGTH
  · simp only [hle, if_true]
    exact hlen
  · simp only [hle, if_false]
    have hne : ¬ (DISCORD_MAX_MESSAGE_LENGTH = l.length) := by
      simp only [DISCORD_MAX_MESSAGE_LENGTH] at *
      omega
    simp only [hne, if_false]
    cases hnl : lastIndexOf '\n' (l.take DISCORD_MAX_MESSAGE_LENGTH) with
    | some pos =>
      by_cases hp : DISCORD_MAX_MESSAGE_LENGTH / 2 ≤ pos
      · simp [hp]
      · simp only [hp, if_false]
        cases hsp : lastIndexOf ' ' (l.take DISCORD_MAX_MESSAGE_LENGTH) with
        | some sp => simp
        | none => simp [DISCORD_MAX_MESSAGE_LENGTH]
    | none =>
      cases hsp : lastIndexOf ' ' (l.take DISCORD_MAX_MESSAGE_LENGTH) with
      | some sp => simp
      | none => simp [DISCORD_MAX_MESSAGE_LENGTH]

theorem chunkEnd_le_length (l : List Char) : chunkEnd l ≤ l.length := by
  unfold chunkEnd
  by_cases hle : l.length ≤ DISCORD_MAX_MESSAGE_LENGTH
  · simp [hle]
  · simp only [hle, if_false]
    have hlt : DISCORD_MAX_MESSAGE_LENGTH < l.length := by omega
    have hne : ¬ (DISCORD_MAX_MESSAGE_LENGTH = l.length) := by omega
    simp only [hne, if_false]
    have hta : (l.take DISCORD_MAX_MESSAGE_LENGTH).length = DISCORD_MAX_MESSAGE_LENGTH := by
      simp; omega
    cases hnl : lastIndexOf '\n' (l.take DISCORD_MAX_MESSAGE_LENGTH) with
    | some pos =>
      have hpos := lastIndexOf_lt_length hnl
      rw [hta] at hpos
      by_cases hp : DISCORD_MAX_MESSAGE_LENGTH / 2 ≤ pos
      · simp only [hp, if_true]; omega
      · simp only [hp, if_false]
        cases hsp : lastIndexOf ' ' (l.take DISCORD_MAX_MESSAGE_LENGTH) with
        | some sp =>
          have hspl := lastIndexOf_lt_length hsp
          rw [hta] at hspl
          simp only []
          omega
        | none => simp only []; omega
    | none =>
      cases hsp : lastIndexOf ' ' (l.take DISCORD_MAX_MESSAGE_LENGTH) with
      | some sp =>
        have hspl := lastIndexOf_lt_length hsp
        rw [hta] at hspl
        simp only []
        omega
      | none => simp only []; omega

theorem chunkEnd_le_max (l : List Char) : chunkEnd l ≤ DISCORD_MAX_MESSAGE_LENGTH := by
  unfold chunkEnd
  by_cases hle : l.length ≤ DISCORD_MAX_MESSAGE_LENGTH
  · simp [hle]
  · simp only [hle, if_false]
    have hne : ¬ (DISCORD_MAX_MESSAGE_LENGTH = l.length) := by omega
    simp only [hne, if_false]
    have hta : (l.take DISCORD_MAX_MESSAGE_LENGTH).length = DISCORD_MAX_MESSAGE_LENGTH := by
      simp; omega
    cases hnl : lastIndexOf '\n' (l.take DISCORD_MAX_MESSAGE_LENGTH) with
    | some pos =>
      have hpos := lastIndexOf_lt_length hnl
      rw [hta] at hpos
      by_cases hp : DISCORD_MAX_MESSAGE_LENGTH / 2 ≤ pos
      · simp only [hp, if_true]; omega
      · simp only [hp, if_false]
        cases hsp : lastIndexOf ' ' (l.take DISCORD_MAX_MESSAGE_LENGTH) with
        | some sp =>
          have hspl := lastIndexOf_lt_length hsp
          rw [hta] at hspl
          simp only []
          omega
        | none => simp only []; exact Nat.le_refl _
    | none =>
      cases hsp : lastIndexOf ' ' (l.take DISCORD_MAX_MESSAGE_LENGTH) with
      | some sp =>
        have hspl := lastIndexOf_lt_length hsp
        rw [hta] at hspl
        simp only []
        omega
      | none => simp only []; exact Nat.le_refl _

/-- The `while !remaining.is_empty()` loop of `split_message_for_discord`:
emit the prefix up to `chunkEnd` and continue on the rest. -/
def splitLoop (remaining : List Char) : List (List Char) :=
  if h : remaining = [] then []
  else
    (remaining.take (chunkEnd remaining)) :: splitLoop (remaining.drop (chunkEnd remaining))
termination_by remaining.length
decreasing_by
  simp only [List.length_drop]
  have h1 := chunkEnd_pos h
  have h2 : 0 < remaining.length := List.length_pos.mpr h
  omega

/-- `split_message_for_discord` (`src/parser.rs` lines 8-45): a message of
at most 2000 characters is returned whole (note: the empty message is
returned as one empty chunk); a longer one goes through the loop. -/
def split_message_for_discord (message : List Char) : List (List Char) :=
  if message.length ≤ DISCORD_MAX_MESSAGE_LENGTH then [message]
  else splitLoop message

theorem splitLoop_join (l : List Char) : (splitLoop l).flatten = l := by
  rw [splitLoop]
  by_cases h : l = []
  · simp [h]
  · simp only [h, dite_false]
    have ih := splitLoop_join (l.drop (chunkEnd l))
    simp [List.flatten, ih]
termination_by l.length
decreasing_by
  simp only [List.length_drop]
  have h1 := chunkEnd_pos h
  have h2 : 0 < l.length := List.length_pos.mpr h
  omega

theorem splitLoop_chunk_le (l : List Char) :
    ∀ c ∈ splitLoop l, c.length ≤ DISCORD_MAX_MESSAGE_LENGTH := by
  intro c hc
  rw [splitLoop] at hc
  by_cases h : l = []
  · simp [h] at hc
  · simp only [h, dite_false, List.mem_cons] at hc
    cases hc with
    | inl he =>
      subst he
      have := chunkEnd_le_max l
      simp only [List.length_take]
      omega
    | inr hm => exact splitLoop_chunk_le (l.drop (chunkEnd l)) c hm
termination_by l.length
decreasing_by
  simp only [List.length_drop]
  have h1 := chunkEnd_pos h
  have h2 : 0 < l.length := List.length_pos.mpr h
  omega

/-- C3: for every string (modelled as its list of Unicode scalar values),
concatenating the chunks returned by `split_message_for_discord`
reproduces the string exactly, and every chunk holds at most 2000
characters (counted by code point). -/
theorem split_message_for_discord_spec :
    ∀ s : List Char,
      (split_message_for_discord s).flatten = s ∧
      (split_message_for_discord s).all
        (fun c => decide (c.length ≤ DISCORD_MAX_MESSAGE_LENGTH)) = true := by
  intro s
  constructor
  · unfold split_message_for_discord
    by_cases h : s.length ≤ DISCORD_MAX_MESSAGE_LENGTH
    · simp [h, List.flatten]
    · simp [h, splitLoop_join]
  · rw [List.all_eq_true]
    intro c hc
    rw [decide_eq_true_eq]
    unfold split_message_for_discord at hc
    by_cases h : s.length ≤ DISCORD_MAX_MESSAGE_LENGTH
    · simp only [h, if_true, List.mem_singleton] at hc
      subst hc
      exact h
    · simp only [h, if_false] at hc
      exact splitLoop_chunk_le s c hc

/-- C6 counterexample: on the empty message the chunker does not return an
empty sequence. -/
theorem split_message_empty_cex : split_message_for_discord [] ≠ [] := by decide

/-- C6 amended: on the empty message the chunker returns exactly one chunk,
the empty string (the callers skip chunks that are blank after trimming,
so nothing is sent). -/
theorem split_message_empty_singleton : split_message_for_discord [] = [[]] := by decide

/-! ## parser.rs: `extract_file_paths`

The fixed regex
`(?i)(?:^|[\s`"'(\[])(/[^\s`"')\]]+\.(?:png|...|txt))(?:$|[\s`"')\].,;:!?])`
is executed with the `regex` crate's leftmost-first semantics: the match
with the smallest start position wins, alternatives are tried in order,
and the greedy `+` prefers the longest expansion that lets the rest of
the pattern match.  The embedding below implements exactly that search
for this one pattern.  `captures_iter` continues after the end of the
previous match (the consumed right boundary character included). -/

/-- The recognized extensions, lowercase. -/
def SUPPORTED_EXTENSIONS : List (List Char) :=
  ["png", "jpg", "jpeg", "gif", "webp", "svg", "bmp", "pdf",
   "docx", "pptx", "xlsx", "csv", "json", "txt"].map String.data

/-- The left boundary class `[\s`"'(\[]`. -/
def isLeftBoundary (c : Char) : Bool :=
  c.isWhitespace || c = '`' || c = '"' || c = '\'' || c = '(' || c = '['

/-- The right boundary class `[\s`"')\].,;:!?]`. -/
def isRightBoundary (c : Char) : Bool :=
  c.isWhitespace || c = '`' || c = '"' || c = '\'' || c = ')' || c = ']' ||
  c = '.' || c = ',' || c = ';' || c = ':' || c = '!' || c = '?'

/-- The path character class `[^\s`"')\]]`. -/
def isPathChar (c : Char) : Bool :=
  !(c.isWhitespace || c = '`' || c = '"' || c = '\'' || c = ')' || c = ']')

/-- Try one extension: the next `ext.length` characters must spell `ext`
case-insensitively and be followed by a right boundary character or the
end of the text.  Returns the matched characters (original case) and the
rest after them. -/
def extCandidate (cs : List Char) (ext : List Char) : Option (List Char × List Char) :=
  let taken := cs.take ext.length
  let rest := cs.drop ext.length
  if taken.map Char.toLower = ext ∧
     (match rest with
      | [] => true
      | c :: _ => isRightBoundary c) = true then
    some (taken, rest)
  else none

/-- The alternation `(?:png|jpg|...)` (its branches are prefix-free, so
the order cannot matter). -/
def matchExt (cs : List Char) : Option (List Char × List Char) :=
  SUPPORTED_EXTENSIONS.findSome? (extCandidate cs)

/-- The tail `[^\s`"')\]]*\.(?:ext)` of the path pattern with the boundary
lookahead, greedy: a longer run of path characters before the dot is
preferred (the regex engine backtracks from the longest).  Returns the
consumed characters and the rest after the extension. -/
def matchDotExt : List Char → Option (List Char × List Char)
  | [] => none
  | c :: cs =>
    match (if isPathChar c then matchDotExt cs else none) with
    | some (con, rest) => some (c :: con, rest)
    | none =>
      if c = '.' then
        match matchExt cs with
        | some (ext, rest) => some ('.' :: ext, rest)
        | none => none
      else none

/-- The captured group `/[^\s`"')\]]+\.(?:ext)` followed by the right
boundary `(?:$|[...])`; the boundary character, when present, is consumed
by the match.  Returns the captured path and the rest of the text after
the whole match. -/
def matchPath : List Char → Option (List Char × List Char)
  | [] => none
  | c :: cs =>
    if c = '/' then
      match cs with
      | [] => none
      | c0 :: cs0 =>
        if isPathChar c0 then
          match matchDotExt cs0 with
          | some (con, rest) =>
            some ('/' :: c0 :: con,
              match rest with
              | [] => []
              | _ :: rs => rs)
          | none => none
        else none
    else none

theorem extCandidate_eq {cs ext taken rest : List Char}
    (h : extCandidate cs ext = some (taken, rest)) :
    taken ++ rest = cs ∧ taken.map Char.toLower = ext := by
  unfold extCandidate at h
  by_cases hc : (cs.take ext.length).map Char.toLower = ext ∧
      (match cs.drop ext.length with
       | [] => true
       | c :: _ => isRightBoundary c) = true
  · rw [if_pos hc] at h
    cases h
    exact ⟨List.take_append_drop _ _, hc.1⟩
  · rw [if_neg hc] at h
    cases h

theorem matchExt_eq {cs ext rest : List Char}
    (h : matchExt cs = some (ext, rest)) :
    ext ++ rest = cs ∧ ∃ e ∈ SUPPORTED_EXTENSIONS, ext.map Char.toLower = e := by
  unfold matchExt at h
  have main : ∀ exts : List (List Char),
      exts.findSome? (extCandidate cs) = some (ext, rest) →
      ext ++ rest = cs ∧ ∃ e ∈ exts, ext.map Char.toLower = e := by
    intro exts
    induction exts with
    | nil => intro hh; simp [List.findSome?] at hh
    | cons e es ih =>
      intro hh
      rw [List.findSome?] at hh
      cases he : extCandidate cs e with
      | some v =>
        rw [he] at hh
        cases hh
        have := extCandidate_eq he
        exact ⟨this.1, ⟨e, List.mem_cons_self _ _, this.2⟩⟩
      | none =>
        rw [he] at hh
        have := ih hh
        exact ⟨this.1, by
          obtain ⟨e1, he1, he2⟩ := this.2
          exact ⟨e1, List.mem_cons_of_mem _ he1, he2⟩⟩
  exact main SUPPORTED_EXTENSIONS h

theorem matchDotExt_eq {s con rest : List Char}
    (h : matchDotExt s = some (con, rest)) :
    con ++ rest = s ∧ con ≠ [] ∧
      ∃ e ∈ SUPPORTED_EXTENSIONS, ('.' :: e).isSuffixOf (con.map Char.toLower) = true := by
  induction s generalizing con rest with
  | nil => simp [matchDotExt] at h
  | cons c cs ih =>
    rw [matchDotExt] at h
    cases hd : (if isPathChar c then matchDotExt cs else none) with
    | some v =>
      rw [hd] at h
      obtain ⟨con1, rest1⟩ := v
      cases h
      by_cases hpc : isPathChar c
      · rw [if_pos hpc] at hd
        obtain ⟨h1, h2, e, he, hs⟩ := ih hd
        refine ⟨by simp [h1], by simp, e, he, ?_⟩
        rw [List.isSuffixOf_iff_suffix] at hs ⊢
        simp only [List.map_cons]
        exact hs.trans (List.suffix_cons _ _)
      · rw [if_neg hpc] at hd
        cases hd
    | none =>
      rw [hd] at h
      by_cases hdot : c = '.'
      · rw [if_pos hdot] at h
        cases hext : matchExt cs with
        | some v =>
          obtain ⟨ext, rest1⟩ := v
          rw [hext] at h
          cases h
          obtain ⟨h1, e, he, hmap⟩ := matchExt_eq hext
          subst hdot
          refine ⟨by simp [h1], by simp, e, he, ?_⟩
          rw [List.isSuffixOf_iff_suffix]
          simp only [List.map_cons]
          rw [show Char.toLower '.' = '.' from rfl, hmap]
        | none => rw [hext] at h; cases h
      · rw [if_neg hdot] at h
        cases h

theorem matchPath_eq {s p restA : List Char}
    (h : matchPath s = some (p, restA)) :
    (∃ mid : List Char, p ++ mid ++ restA = s ∧ mid.length ≤ 1) ∧
      p ≠ [] ∧ p.head? = some '/' ∧
      ∃ e ∈ SUPPORTED_EXTENSIONS, ('.' :: e).isSuffixOf (p.map Char.toLower) = true := by
  unfold matchPath at h
  split at h
  · cases h
  · rename_i c cs
    split at h
    · rename_i hc
      split at h
      · cases h
      · rename_i c0 cs0
        split at h
        · rename_i hpc
          split at h
          · rename_i con rest hd
            cases h
            obtain ⟨h1, h2, e, he, hs⟩ := matchDotExt_eq hd
            subst hc
            constructor
            · cases rest with
              | nil =>
                exact ⟨[], by simp [← h1], by simp⟩
              | cons b rs =>
                exact ⟨[b], by simp [← h1], by simp⟩
            · refine ⟨by simp, by simp, e, he, ?_⟩
              rw [List.isSuffixOf_iff_suffix] at hs ⊢
              simp only [List.map_cons]
              exact hs.trans ((List.suffix_cons _ _).trans (List.suffix_cons _ _))
          · cases h
        · cases h
    · cases h

theorem matchPath_rest_lt {s p restA : List Char}
    (h : matchPath s = some (p, restA)) : restA.length < s.length := by
  obtain ⟨⟨mid, hmid, _⟩, hne, _, _⟩ := matchPath_eq h
  have : p.length + mid.length + restA.length = s.length := by
    rw [← hmid]; simp; omega
  have hp : 0 < p.length := List.length_pos.mpr hne
  omega

/-- The search loop of `captures_iter` at positions after the start of the
text: a match can begin only where a left boundary character stands; the
path is then matched right after it, and the search resumes after the
whole match. -/
def scanAux : List Char → List (List Char)
  | [] => []
  | c :: cs =>
    if isLeftBoundary c then
      match h : matchPath cs with
      | some (p, rest) => p :: scanAux rest
      | none => scanAux cs
    else scanAux cs
termination_by s => s.length
decreasing_by
  · have h1 := matchPath_rest_lt h
    simp only [List.length_cons]
    omega
  · simp
  · simp

theorem scanAux_eq_match {c : Char} {cs p0 rest : List Char}
    (hb : isLeftBoundary c = true) (hm : matchPath cs = some (p0, rest)) :
    scanAux (c :: cs) = p0 :: scanAux rest := by
  rw [scanAux, if_pos hb]
  split
  · rename_i p1 rest1 hm1
    rw [hm] at hm1
    cases hm1
    rfl
  · rename_i hm1
    rw [hm] at hm1
    cases hm1

theorem scanAux_eq_nomatch {c : Char} {cs : List Char}
    (hb : isLeftBoundary c = true) (hm : matchPath cs = none) :
    scanAux (c :: cs) = scanAux cs := by
  rw [scanAux, if_pos hb]
  split
  · rename_i p1 rest1 hm1
    rw [hm] at hm1
    cases hm1
  · rfl

theorem scanAux_eq_noboundary {c : Char} {cs : List Char}
    (hb : isLeftBoundary c = false) :
    scanAux (c :: cs) = scanAux cs := by
  rw [scanAux, if_neg (by simp [hb])]

/-- Index of the first occurrence of `x` in a list of paths (the length of
the list when absent). -/
def firstIdx (x : List Char) : List (List Char) → Nat
  | [] => 0
  | a :: as => if a = x then 0 else firstIdx x as + 1

theorem firstIdx_cons_self (x : List Char) (l : List (List Char)) :
    firstIdx x (x :: l) = 0 := by
  simp [firstIdx]

theorem firstIdx_cons_ne {x a : List Char} (l : List (List Char)) (h : a ≠ x) :
    firstIdx x (a :: l) = firstIdx x l + 1 := by
  simp [firstIdx, h]

/-- The full match stream of `captures_iter` over the text: at position 0
the `^` alternative of the left boundary is tried first (a path may start
right at the beginning); afterwards `scanAux` takes over. -/
def extractMatches (t : List Char) : List (List Char) :=
  match matchPath t with
  | some (p, rest) => p :: scanAux rest
  | none => scanAux t

/-- The `seen : HashSet` deduplication loop of `extract_file_paths`
(`src/parser.rs` lines 58-70): keep a path only the first time it shows. -/
def dedupSeen (seen : List (List Char)) : List (List Char) → List (List Char)
  | [] => []
  | p :: ps => if p ∈ seen then dedupSeen seen ps else p :: dedupSeen (p :: seen) ps

/-- `extract_file_paths` (`src/parser.rs` lines 52-73): the deduplicated
stream of captured paths, in match order. -/
def extract_file_paths (t : List Char) : List (List Char) :=
  dedupSeen [] (extractMatches t)

/-- A path ends with a dot and one of the recognized extensions,
case-insensitively. -/
def hasSupportedExt (p : List Char) : Bool :=
  SUPPORTED_EXTENSIONS.any (fun e => ('.' :: e).isSuffixOf (p.map Char.toLower))

theorem matchPath_shape {s p restA : List Char}
    (h : matchPath s = some (p, restA)) :
    p <:+: s ∧ restA <:+ s ∧ p.head? = some '/' ∧ hasSupportedExt p = true := by
  obtain ⟨⟨mid, hmid, _⟩, hne, hhead, e, he, hs⟩ := matchPath_eq h
  refine ⟨⟨[], mid ++ restA, by simp [← hmid]⟩, ⟨p ++ mid, by simp [← hmid]⟩, hhead, ?_⟩
  rw [hasSupportedExt, List.any_eq_true]
  exact ⟨e, he, hs⟩

theorem scanAux_mem :
    ∀ s : List Char, ∀ p ∈ scanAux s,
      p <:+: s ∧ p.head? = some '/' ∧ hasSupportedExt p = true := by
  intro s
  induction s using scanAux.induct with
  | case1 => intro p hp; simp [scanAux] at hp
  | case2 c cs hb p0 rest hm ih =>
    intro p hp
    rw [scanAux_eq_match hb hm] at hp
    rcases List.mem_cons.mp hp with he | hmem
    · subst he
      obtain ⟨hinf, _, hhead, hext⟩ := matchPath_shape hm
      exact ⟨List.infix_cons hinf, hhead, hext⟩
    · obtain ⟨hinf, hhead, hext⟩ := ih p hmem
      obtain ⟨_, hsuf, _, _⟩ := matchPath_shape hm
      exact ⟨List.infix_cons (hinf.trans hsuf.isInfix), hhead, hext⟩
  | case3 c cs hb hm ih =>
    intro p hp
    rw [scanAux_eq_nomatch hb hm] at hp
    obtain ⟨hinf, hhead, hext⟩ := ih p hp
    exact ⟨List.infix_cons hinf, hhead, hext⟩
  | case4 c cs hb ih =>
    intro p hp
    rw [scanAux_eq_noboundary (Bool.not_eq_true _ ▸ eq_false_of_ne_true hb)] at hp
    obtain ⟨hinf, hhead, hext⟩ := ih p hp
    exact ⟨List.infix_cons hinf, hhead, hext⟩

theorem extractMatches_mem {t : List Char} :
    ∀ p ∈ extractMatches t,
      p <:+: t ∧ p.head? = some '/' ∧ hasSupportedExt p = true := by
  intro p hp
  unfold extractMatches at hp
  cases hm : matchPath t with
  | some v =>
    obtain ⟨p0, rest⟩ := v
    rw [hm] at hp
    rcases List.mem_cons.mp hp with he | hmem
    · subst he
      obtain ⟨hinf, _, hhead, hext⟩ := matchPath_shape hm
      exact ⟨hinf, hhead, hext⟩
    · obtain ⟨hinf, hhead, hext⟩ := scanAux_mem rest p hmem
      obtain ⟨_, hsuf, _, _⟩ := matchPath_shape hm
      exact ⟨hinf.trans hsuf.isInfix, hhead, hext⟩
  | none =>
    rw [hm] at hp
    exact scanAux_mem t p hp

theorem dedupSeen_mem :
    ∀ (l seen : List (List Char)) (x : List Char),
      x ∈ dedupSeen seen l ↔ (x ∈ l ∧ x ∉ seen) := by
  intro l
  induction l with
  | nil => intro seen x; simp [dedupSeen]
  | cons p ps ih =>
    intro seen x
    rw [dedupSeen]
    by_cases hs : p ∈ seen
    · rw [if_pos hs, ih]
      constructor
      · rintro ⟨h1, h2⟩
        exact ⟨List.mem_cons_of_mem _ h1, h2⟩
      · rintro ⟨h1, h2⟩
        rcases List.mem_cons.mp h1 with he | hm
        · subst he; exact absurd hs h2
        · exact ⟨hm, h2⟩
    · rw [if_neg hs]
      constructor
      · intro hx
        rcases List.mem_cons.mp hx with he | hm
        · subst he; exact ⟨List.mem_cons_self _ _, hs⟩
        · obtain ⟨h1, h2⟩ := (ih _ _).mp hm
          refine ⟨List.mem_cons_of_mem _ h1, ?_⟩
          intro hc
          exact h2 (List.mem_cons_of_mem _ hc)
      · rintro ⟨h1, h2⟩
        rcases List.mem_cons.mp h1 with he | hm
        · subst he; exact List.mem_cons_self _ _
        · by_cases hxp : x = p
          · subst hxp; exact List.mem_cons_self _ _
          · refine List.mem_cons_of_mem _ ((ih _ _).mpr ⟨hm, ?_⟩)
            intro hc
            rcases List.mem_cons.mp hc with he | hsn
            · exact hxp he
            · exact h2 hsn

theorem dedupSeen_sublist :
    ∀ (l seen : List (List Char)), (dedupSeen seen l).Sublist l := by
  intro l
  induction l with
  | nil => intro seen; simp [dedupSeen]
  | cons p ps ih =>
    intro seen
    rw [dedupSeen]
    by_cases hs : p ∈ seen
    · rw [if_pos hs]
      exact (ih seen).trans (List.sublist_cons_self _ _)
    · rw [if_neg hs]
      exact (ih (p :: seen)).cons₂ _

theorem dedupSeen_nodup :
    ∀ (l seen : List (List Char)), (dedupSeen seen l).Nodup := by
  intro l
  induction l with
  | nil => intro seen; simp [dedupSeen]
  | cons p ps ih =>
    intro seen
    rw [dedupSeen]
    by_cases hs : p ∈ seen
    · rw [if_pos hs]; exact ih seen
    · rw [if_neg hs]
      rw [List.nodup_cons]
      refine ⟨?_, ih (p :: seen)⟩
      intro hc
      have := (dedupSeen_mem ps (p :: seen) p).mp hc
      exact this.2 (List.mem_cons_self _ _)

theorem dedupSeen_pairwise :
    ∀ (l seen : List (List Char)),
      List.Pairwise (fun a b => firstIdx a l < firstIdx b l) (dedupSeen seen l) := by
  intro l
  induction l with
  | nil => intro seen; simp [dedupSeen]
  | cons p ps ih =>
    intro seen
    rw [dedupSeen]
    by_cases hs : p ∈ seen
    · rw [if_pos hs]
      refine (ih seen).imp_of_mem ?_
      intro a b ha hb hlt
      have hma := (dedupSeen_mem ps seen a).mp ha
      have hmb := (dedupSeen_mem ps seen b).mp hb
      have hap : a ≠ p := by rintro rfl; exact hma.2 hs
      have hbp : b ≠ p := by rintro rfl; exact hmb.2 hs
      rw [firstIdx_cons_ne _ (Ne.symm hap), firstIdx_cons_ne _ (Ne.symm hbp)]
      omega
    · rw [if_neg hs]
      rw [List.pairwise_cons]
      constructor
      · intro b hb
        have hmb := (dedupSeen_mem ps (p :: seen) b).mp hb
        have hbp : b ≠ p := by
          rintro rfl; exact hmb.2 (List.mem_cons_self _ _)
        rw [firstIdx_cons_self, firstIdx_cons_ne _ (Ne.symm hbp)]
        omega
      · refine (ih (p :: seen)).imp_of_mem ?_
        intro a b ha hb hlt
        have hma := (dedupSeen_mem ps (p :: seen) a).mp ha
        have hmb := (dedupSeen_mem ps (p :: seen) b).mp hb
        have hap : a ≠ p := by rintro rfl; exact hma.2 (List.mem_cons_self _ _)
        have hbp : b ≠ p := by rintro rfl; exact hmb.2 (List.mem_cons_self _ _)
        rw [firstIdx_cons_ne _ (Ne.symm hap), firstIdx_cons_ne _ (Ne.symm hbp)]
        omega

/-- C7: `extract_file_paths` returns pairwise-distinct paths; they are a
subsequence of the raw match stream containing each matched path exactly
once, ordered by first occurrence in that stream (their `firstIdx` positions are strictly increasing); and every returned path
occurs in the text as a contiguous substring, begins with `/` and ends
with a recognized extension, case-insensitively. -/
theorem extract_file_paths_spec :
    ∀ t : List Char,
      (extract_file_paths t).Nodup ∧
      (extract_file_paths t).Sublist (extractMatches t) ∧
      (∀ p, p ∈ extract_file_paths t ↔ p ∈ extractMatches t) ∧
      List.Pairwise
        (fun a b => firstIdx a (extractMatches t) < firstIdx b (extractMatches t))
        (extract_file_paths t) ∧
      (∀ p ∈ extract_file_paths t,
        p <:+: t ∧ p.head? = some '/' ∧ hasSupportedExt p = true) := by
  intro t
  refine ⟨dedupSeen_nodup _ _, dedupSeen_sublist _ _, ?_, dedupSeen_pairwise _ _, ?_⟩
  · intro p
    rw [extract_file_paths, dedupSeen_mem]
    simp
  · intro p hp
    have hm := (dedupSeen_mem _ _ p).mp hp
    exact extractMatches_mem p hm.1

/-! ## parser.rs: `strip_file_paths`

`Regex::replace_all` with an empty replacement makes one left-to-right
pass over its input, deleting the leftmost non-overlapping matches; the
output is the concatenation of the parts between the matches (deleted
spans are never rescanned).  The escaped path patterns are literal, so the
three per-path passes below scan for a literal occurrence at every
position and skip what they delete. -/

/-- `replace_all` of a literal pattern by the empty string (used for the
backtick-delimited and the bare path passes).  An empty pattern is kept
as the identity (paths are never empty). -/
def removeLiteral (pat : List Char) : List Char → List Char
  | [] => []
  | c :: cs =>
    if h : pat ≠ [] ∧ pat.isPrefixOf (c :: cs) then
      removeLiteral pat ((c :: cs).drop pat.length)
    else
      c :: removeLiteral pat cs
termination_by s => s.length
decreasing_by
  · have hpat : 0 < pat.length := List.length_pos.mpr h.1
    simp only [List.length_drop, List.length_cons]
    omega
  · simp

/-- One attempt of the image-reference pattern `!\[[^\]]*\]\(PATH\)` at the
head of `s`: `![`, a greedy run of non-`]` characters, `](`, the literal
path, `)`.  Returns the rest after the whole match. -/
def matchImageAt (pathPat : List Char) (s : List Char) : Option (List Char) :=
  match s with
  | '!' :: '[' :: s1 =>
    match s1.dropWhile (fun c => c ≠ ']') with
    | ']' :: '(' :: s3 =>
      if pathPat.isPrefixOf s3 then
        match s3.drop pathPat.length with
        | ')' :: rest => some rest
        | _ => none
      else none
    | _ => none
  | _ => none

theorem matchImageAt_lt {pathPat s rest : List Char}
    (h : matchImageAt pathPat s = some rest) : rest.length < s.length := by
  unfold matchImageAt at h
  split at h
  · rename_i s1
    split at h
    · rename_i s3 hdrop
      split at h
      · split at h
        · rename_i rest1 hsplit
          cases h
          have h1 : (s1.dropWhile (fun c => c ≠ ']')).length ≤ s1.length :=
            (List.dropWhile_sublist _).length_le
          rw [hdrop] at h1
          have h2 : (s3.drop pathPat.length).length ≤ s3.length := by
            simp only [List.length_drop]; omega
          rw [hsplit] at h2
          simp only [List.length_cons] at h1 h2 ⊢
          omega
        · cases h
      · cases h
    · cases h
  · cases h

/-- `replace_all` of the image-reference pattern by the empty string. -/
def removeImageRefs (pathPat : List Char) : List Char → List Char
  | [] => []
  | c :: cs =>
    match h : matchImageAt pathPat (c :: cs) with
    | some rest => removeImageRefs pathPat rest
    | none => c :: removeImageRefs pathPat cs
termination_by s => s.length
decreasing_by
  · exact matchImageAt_lt h
  · simp

/-- `replace_all` of `\n{3,}` by two newlines: a run of three or more
newlines loses newlines until two remain. -/
def collapseNewlineRuns : List Char → List Char
  | '\n' :: '\n' :: '\n' :: cs => collapseNewlineRuns ('\n' :: '\n' :: cs)
  | c :: cs => c :: collapseNewlineRuns cs
  | [] => []
termination_by s => s.length
decreasing_by
  · simp
  · simp

/-- The lines of a text: splitting on `'\n'`, `n` separators give `n + 1`
pieces, none of which holds a newline. -/
def splitOnNewline : List Char → List (List Char)
  | [] => [[]]
  | c :: cs =>
    if c = '\n' then [] :: splitOnNewline cs
    else
      match splitOnNewline cs with
      | l :: ls => (c :: l) :: ls
      | [] => [[c]]

/-- Rejoin lines with single newlines (inverse of `splitOnNewline`). -/
def joinNewline : List (List Char) → List Char
  | [] => []
  | [l] => l
  | l :: l2 :: ls => l ++ '\n' :: joinNewline (l2 :: ls)

/-- A line that consists solely of spaces and tabs (and is not empty):
the multiline pattern `^[ \t]+$`. -/
def isBlankWsLine (l : List Char) : Bool :=
  !l.isEmpty && l.all (fun c => c = ' ' || c = '\t')

/-- `replace_all` of `(?m)^[ \t]+$` by the empty string: the content of
every space/tab-only line is deleted, the surrounding newlines stay. -/
def deleteBlankWsLines (s : List Char) : List Char :=
  joinNewline ((splitOnNewline s).map (fun l => if isBlankWsLine l then [] else l))

/-- `strip_file_paths` (`src/parser.rs` lines 76-98): per path, in input
order, remove image references, then backtick-delimited occurrences, then
bare occurrences; finally collapse newline runs of three or more to two
and delete space/tab-only line contents. -/
def strip_file_paths (text : List Char) (filePaths : List (List Char)) : List Char :=
  let removed := filePaths.foldl
    (fun acc p => removeLiteral p (removeLiteral ('`' :: p ++ ['`']) (removeImageRefs p acc)))
    text
  deleteBlankWsLines (collapseNewlineRuns removed)

theorem removeLiteral_nil (pat : List Char) : removeLiteral pat [] = [] := by
  rw [removeLiteral]

theorem removeLiteral_hit {pat : List Char} (c : Char) (cs : List Char)
    (hne : pat ≠ []) (hp : pat.isPrefixOf (c :: cs) = true) :
    removeLiteral pat (c :: cs) = removeLiteral pat ((c :: cs).drop pat.length) := by
  rw [removeLiteral, dif_pos ⟨hne, hp⟩]

theorem removeLiteral_miss {pat : List Char} (c : Char) (cs : List Char)
    (hp : pat.isPrefixOf (c :: cs) = false) :
    removeLiteral pat (c :: cs) = c :: removeLiteral pat cs := by
  rw [removeLiteral, dif_neg]
  rintro ⟨_, hp2⟩
  rw [hp] at hp2
  cases hp2

theorem removeImageRefs_nil (pat : List Char) : removeImageRefs pat [] = [] := by
  rw [removeImageRefs]

theorem removeImageRefs_hit {pat rest : List Char} (c : Char) (cs : List Char)
    (hm : matchImageAt pat (c :: cs) = some rest) :
    removeImageRefs pat (c :: cs) = removeImageRefs pat rest := by
  rw [removeImageRefs]
  split
  · rename_i rest1 hm1
    rw [hm] at hm1
    cases hm1
    rfl
  · rename_i hm1
    rw [hm] at hm1
    cases hm1

theorem removeImageRefs_miss {pat : List Char} (c : Char) (cs : List Char)
    (hm : matchImageAt pat (c :: cs) = none) :
    removeImageRefs pat (c :: cs) = c :: removeImageRefs pat cs := by
  rw [removeImageRefs]
  split
  · rename_i rest1 hm1
    rw [hm] at hm1
    cases hm1
  · rfl

theorem splitOnNewline_ne_nil (s : List Char) : splitOnNewline s ≠ [] := by
  cases s with
  | nil => simp [splitOnNewline]
  | cons c cs =>
    rw [splitOnNewline]
    by_cases hc : c = '\n'
    · simp [hc]
    · rw [if_neg hc]
      cases splitOnNewline cs <;> simp

theorem mem_splitOnNewline_no_nl :
    ∀ (s : List Char), ∀ l ∈ splitOnNewline s, '\n' ∉ l := by
  intro s
  induction s with
  | nil => intro l hl; simp [splitOnNewline] at hl; simp [hl]
  | cons c cs ih =>
    intro l hl
    rw [splitOnNewline] at hl
    by_cases hc : c = '\n'
    · rw [if_pos hc] at hl
      rcases List.mem_cons.mp hl with he | hm
      · simp [he]
      · exact ih l hm
    · rw [if_neg hc] at hl
      cases hsp : splitOnNewline cs with
      | nil => exact absurd hsp (splitOnNewline_ne_nil cs)
      | cons l0 ls0 =>
        rw [hsp] at hl
        rcases List.mem_cons.mp hl with he | hm
        · subst he
          intro hmem
          rcases List.mem_cons.mp hmem with he2 | hm2
          · exact hc he2.symm
          · exact ih l0 (hsp ▸ List.mem_cons_self _ _) hm2
        · exact ih l (hsp ▸ List.mem_cons_of_mem _ hm)

theorem splitOnNewline_no_nl {l : List Char} (h : '\n' ∉ l) :
    splitOnNewline l = [l] := by
  induction l with
  | nil => simp [splitOnNewline]
  | cons c cs ih =>
    rw [splitOnNewline]
    have hc : ¬ (c = '\n') := by
      intro he; exact h (he ▸ List.mem_cons_self _ _)
    rw [if_neg hc]
    rw [ih (fun hm => h (List.mem_cons_of_mem _ hm))]

theorem splitOnNewline_append_nl {l : List Char} (r : List Char) (h : '\n' ∉ l) :
    splitOnNewline (l ++ '\n' :: r) = l :: splitOnNewline r := by
  induction l with
  | nil => simp [splitOnNewline]
  | cons c cs ih =>
    have hc : ¬ (c = '\n') := by
      intro he; exact h (he ▸ List.mem_cons_self _ _)
    rw [List.cons_append, splitOnNewline, if_neg hc,
        ih (fun hm => h (List.mem_cons_of_mem _ hm))]

theorem splitOnNewline_joinNewline :
    ∀ ls : List (List Char), ls ≠ [] → (∀ l ∈ ls, '\n' ∉ l) →
      splitOnNewline (joinNewline ls) = ls := by
  intro ls
  induction ls with
  | nil => intro h; exact absurd rfl h
  | cons l ls0 ih =>
    intro _ hnl
    cases ls0 with
    | nil =>
      rw [joinNewline]
      exact splitOnNewline_no_nl (hnl l (List.mem_cons_self _ _))
    | cons l2 ls2 =>
      rw [joinNewline, splitOnNewline_append_nl _ (hnl l (List.mem_cons_self _ _))]
      rw [ih (by simp) (fun x hx => hnl x (List.mem_cons_of_mem _ hx))]

theorem deleteBlankWsLines_no_ws_line (s : List Char) :
    ∀ l ∈ splitOnNewline (deleteBlankWsLines s), isBlankWsLine l = false := by
  intro l hl
  rw [deleteBlankWsLines] at hl
  have hpieces : ∀ x ∈ (splitOnNewline s).map
      (fun l => if isBlankWsLine l then [] else l), '\n' ∉ x := by
    intro x hx
    rcases List.mem_map.mp hx with ⟨y, hy, he⟩
    by_cases hb : isBlankWsLine y
    · rw [if_pos hb] at he; subst he; simp
    · rw [if_neg hb] at he; subst he
      exact mem_splitOnNewline_no_nl s y hy
  have hne : (splitOnNewline s).map
      (fun l => if isBlankWsLine l then [] else l) ≠ [] := by
    intro hc
    exact splitOnNewline_ne_nil s (List.map_eq_nil_iff.mp hc)
  rw [splitOnNewline_joinNewline _ hne hpieces] at hl
  rcases List.mem_map.mp hl with ⟨y, _, he⟩
  by_cases hb : isBlankWsLine y
  · rw [if_pos hb] at he; subst he; rfl
  · rw [if_neg hb] at he; subst he
    exact eq_false_of_ne_true hb

/-- C5 amended: the output of `strip_file_paths` never contains a line
consisting solely of spaces and tabs (the space/tab-only line deletion is
the final pass and cannot create such a line); three or more consecutive
newlines, however, can occur in the output, see the counterexample. -/
theorem strip_file_paths_no_ws_only_lines :
    ∀ (text : List Char) (filePaths : List (List Char)),
      (splitOnNewline (strip_file_paths text filePaths)).all
        (fun l => !(isBlankWsLine l)) = true := by
  intro text filePaths
  rw [List.all_eq_true]
  intro l hl
  rw [strip_file_paths] at hl
  rw [deleteBlankWsLines_no_ws_line _ l hl]
  rfl

/-- C5 counterexample: on the text `"a\n \n \nb"` (two lines holding one
space each) with no paths to remove, `strip_file_paths` returns
`"a\n\n\nb"`, which contains three consecutive newlines: the space/tab-only
line deletion runs after the newline collapsing and reintroduces the run. -/
theorem strip_file_paths_triple_newline_cex :
    ['\n', '\n', '\n'] <:+: strip_file_paths ['a', '\n', ' ', '\n', ' ', '\n', 'b'] [] := by
  refine ⟨['a'], ['b'], ?_⟩
  simp [strip_file_paths, collapseNewlineRuns, deleteBlankWsLines, splitOnNewline,
    joinNewline, isBlankWsLine]

/-- C4: the failing input evaluated.  On the text
`"/a.png /a/a.png.png"` the extractor returns exactly `/a.png`, and the
stripper's output ` /a.png` still contains `/a.png` as a substring: the
bare-path `replace_all` pass deletes the occurrence inside
`/a/a.png.png`, and the text around the deleted span splices into a new
occurrence which is never rescanned. -/
theorem strip_file_paths_reformed_path_bug :
    extract_file_paths ['/','a','.','p','n','g',' ','/','a','/','a','.','p','n','g','.','p','n','g'] =
      [['/','a','.','p','n','g']] ∧
    ['/','a','.','p','n','g'] <:+:
      strip_file_paths ['/','a','.','p','n','g',' ','/','a','/','a','.','p','n','g','.','p','n','g']
        (extract_file_paths ['/','a','.','p','n','g',' ','/','a','/','a','.','p','n','g','.','p','n','g']) := by
  have hex : extract_file_paths
      ['/','a','.','p','n','g',' ','/','a','/','a','.','p','n','g','.','p','n','g'] =
      [['/','a','.','p','n','g']] := by
    simp [extract_file_paths, extractMatches, matchPath, matchDotExt, matchExt,
      extCandidate, SUPPORTED_EXTENSIONS, isPathChar, isRightBoundary, isLeftBoundary,
      scanAux_eq_match, scanAux_eq_nomatch, scanAux_eq_noboundary, scanAux, dedupSeen,
      List.isPrefixOf]
  refine ⟨hex, ?_⟩
  rw [hex]
  refine ⟨[' '], [], ?_⟩
  simp [strip_file_paths, removeLiteral_nil, removeLiteral_hit, removeLiteral_miss,
    removeImageRefs_nil, removeImageRefs_hit, removeImageRefs_miss, matchImageAt,
    List.isPrefixOf, collapseNewlineRuns, deleteBlankWsLines, splitOnNewline,
    joinNewline, isBlankWsLine]

/-- `str::trim` on a character list. -/
def trimChars (s : List Char) : List Char :=
  ((s.dropWhile Char.isWhitespace).reverse.dropWhile Char.isWhitespace).reverse

/-- `str::trim` on a Lean `String` (via the character-list model, so that
every definition below is structurally recursive and evaluable). -/
def trimS (s : String) : String :=
  String.mk (trimChars s.data)

/-! ## state.rs: `BridgeState` and `find_channel_id` -/

/-- An instance record of the state document (`src/state.rs` lines 22-30). -/
structure ProjectInstance where
  instanceId : Option String
  agentType : Option String
  channelId : Option String

/-- A project of the state document (`src/state.rs` lines 12-20); the maps
are association lists in iteration order. -/
structure ProjectState where
  projectPath : Option String
  instances : List (String × ProjectInstance)
  discordChannels : List (String × Option String)

/-- The state document (`src/state.rs` lines 6-10). -/
structure BridgeState where
  projects : List (String × ProjectState)

/-- `opt.as_deref().map(str::trim).filter(|v| !v.is_empty())`: a blank
(empty after trimming) or absent string becomes `none`, anything else its
trimmed value. -/
def blankToNone (s : Option String) : Option String :=
  match s with
  | some v => if trimS v = "" then none else some (trimS v)
  | none => none

/-- Lexicographic order on character lists: for UTF-8 strings this is the
byte order `str::cmp` sorts by. -/
def charListLe : List Char → List Char → Bool
  | [], _ => true
  | _ :: _, [] => false
  | a :: as, b :: bs => if a < b then true else if b < a then false else charListLe as bs

/-- Stable insertion of a `(effective id, agent type, channel)` triple:
the new element goes after every element whose key is less than or equal
to its key. -/
def insertByKey (x : String × String × String) :
    List (String × String × String) → List (String × String × String)
  | [] => [x]
  | y :: ys => if charListLe y.1.data x.1.data then y :: insertByKey x ys else x :: y :: ys

/-- The stable ascending sort by effective instance id of
`instances.sort_by(|a, b| a.0.cmp(&b.0))` (for UTF-8 strings the byte
order Rust compares with coincides with Lean's code-point order). -/
def sortByKey (l : List (String × String × String)) : List (String × String × String) :=
  l.foldl (fun acc x => insertByKey x acc) []

/-- The filter of `find_channel_id` (`src/state.rs` lines 59-87): each
instance record whose `agentType` and `channelId` are both non-blank
contributes a `(effective id, trimmed agent type, trimmed channel)`
triple; the effective id is the trimmed `instanceId` when non-blank, else
the map key. -/
def instanceTriples (project : ProjectState) : List (String × String × String) :=
  project.instances.filterMap (fun kv =>
    let effId := match blankToNone kv.2.instanceId with
      | some v => v
      | none => kv.1
    match blankToNone kv.2.agentType with
    | none => none
    | some aType =>
      match blankToNone kv.2.channelId with
      | none => none
      | some channel => some (effId, aType, channel))

/-- `BridgeState::find_channel_id` (`src/state.rs` lines 41-101), inlined
as the source writes it: the exact-instance hit (whose channel is
returned untrimmed and whose agent type is not consulted), then the
filter/sort/find over all instance records, then the legacy
`discordChannels` map. -/
def BridgeState.find_channel_id (st : BridgeState) (projectName agentType : String)
    (instanceId : Option String) : Option String :=
  match st.projects.lookup projectName with
  | none => none
  | some project =>
    match (match instanceId with
           | some requested =>
             match project.instances.lookup requested with
             | some inst =>
               match inst.channelId with
               | some channel => if trimS channel = "" then none else some channel
               | none => none
             | none => none
           | none => none) with
    | some c => some c
    | none =>
      match (sortByKey (instanceTriples project)).find? (fun triple => triple.2.1 == agentType) with
      | some triple => some triple.2.2
      | none =>
        match project.discordChannels.lookup agentType with
        | some och => blankToNone och
        | none => none

/-- Pass 1 of the claim: the exact instance hit.  If an instance id is
given and that record exists with a non-blank `channelId`, that channel
is returned; the record's `agentType` is not consulted. -/
def exactInstanceHit (project : ProjectState) (instanceId : Option String) : Option String :=
  match instanceId with
  | some requested =>
    match project.instances.lookup requested with
    | some inst =>
      match inst.channelId with
      | some channel => if trimS channel = "" then none else some channel
      | none => none
    | none => none
  | none => none

/-- Pass 2 of the claim: among the records whose `agentType` and
`channelId` are both non-blank, sorted ascending by effective instance
identifier (the record's `instanceId` when non-blank, else its map key,
compared as strings), the channel of the first record whose agent type
equals the requested agent. -/
def primaryInstanceFallback (project : ProjectState) (agentType : String) : Option String :=
  match (sortByKey (instanceTriples project)).find? (fun triple => triple.2.1 == agentType) with
  | some triple => some triple.2.2
  | none => none

/-- Pass 3 of the claim: the legacy `discordChannels` entry of the agent,
when present and non-blank. -/
def legacyFallback (project : ProjectState) (agentType : String) : Option String :=
  match project.discordChannels.lookup agentType with
  | some och => blankToNone och
  | none => none

/-- The claim's resolution order: pass 1, else pass 2, else pass 3, else
none; an absent project is none at once. -/
def findChannelSpec (st : BridgeState) (projectName agentType : String)
    (instanceId : Option String) : Option String :=
  match st.projects.lookup projectName with
  | none => none
  | some project =>
    match exactInstanceHit project instanceId with
    | some c => some c
    | none =>
      match primaryInstanceFallback project agentType with
      | some c => some c
      | none => legacyFallback project agentType

theorem fallback_eq (project : ProjectState) (agentType : String) :
    (match (sortByKey (instanceTriples project)).find? (fun triple => triple.2.1 == agentType) with
     | some triple => some triple.2.2
     | none =>
       match project.discordChannels.lookup agentType with
       | some och => blankToNone och
       | none => none) =
    (match primaryInstanceFallback project agentType with
     | some c => some c
     | none => legacyFallback project agentType) := by
  rw [primaryInstanceFallback, legacyFallback]
  cases (sortByKey (instanceTriples project)).find? (fun triple => triple.2.1 == agentType) with
  | some triple => rfl
  | none =>
    cases project.discordChannels.lookup agentType with
    | some och => rfl
    | none => rfl

/-- C2: `find_channel_id` resolves in exactly the claimed precedence
(exact instance hit without checking the record's agent type, then the
sorted primary-instance fallback, then the legacy map, then none), and an
absent project resolves to none. -/
theorem find_channel_id_spec :
    ∀ (st : BridgeState) (projectName agentType : String) (instanceId : Option String),
      st.find_channel_id projectName agentType instanceId =
        findChannelSpec st projectName agentType instanceId ∧
      (st.projects.lookup projectName = none →
        st.find_channel_id projectName agentType instanceId = none) := by
  intro st projectName agentType instanceId
  constructor
  · rw [BridgeState.find_channel_id, findChannelSpec]
    cases st.projects.lookup projectName with
    | none => rfl
    | some project =>
      cases instanceId with
      | none =>
        simp only [exactInstanceHit]
        exact fallback_eq project agentType
      | some requested =>
        simp only [exactInstanceHit]
        cases project.instances.lookup requested with
        | none => exact fallback_eq project agentType
        | some inst =>
          dsimp only []
          cases inst.channelId with
          | none => exact fallback_eq project agentType
          | some channel =>
            dsimp only []
            by_cases ht : trimS channel = ""
            · rw [if_pos ht]
              exact fallback_eq project agentType
            · rw [if_neg ht]
  · intro h
    rw [BridgeState.find_channel_id, h]

/-- `ProjectState::project_path` via `BridgeState` (`src/state.rs` lines
103-108): the project's configured path, when any. -/
def BridgeState.project_path (st : BridgeState) (projectName : String) : Option String :=
  match st.projects.lookup projectName with
  | some p => p.projectPath
  | none => none

/-! ## main.rs: `validate_file_paths`

The filesystem is a record of pure functions: `pathExists` models
`Path::exists`, `canonicalize` models `fs::canonicalize` (`none` for an
error), and `toPath` models `Path::new`/`PathBuf::from`; a resolved path
is its component list, on which Rust's `Path::starts_with` (used for "is
a descendant or the same") is list prefix. -/

structure FileSystem where
  pathExists : String → Bool
  canonicalize : String → Option (List String)
  toPath : String → List String

/-- The canonical project root of `validate_file_paths`
(`src/main.rs` lines 245-246): the canonicalized root, falling back to
the path as given when canonicalization fails. -/
def canonicalProjectRoot (fsys : FileSystem) (root : String) : List String :=
  (fsys.canonicalize root).getD (fsys.toPath root)

/-- `validate_file_paths` (`src/main.rs` lines 240-264): without a project
root everything is rejected; otherwise a candidate is kept (as the
original string) iff it exists, canonicalizes, and its canonical path
equals the canonical root or descends from it. -/
def validate_file_paths (fsys : FileSystem) (paths : List String)
    (projectPath : Option String) : List String :=
  match projectPath with
  | none => []
  | some root =>
    let projectReal := canonicalProjectRoot fsys root
    paths.filter (fun raw =>
      fsys.pathExists raw &&
      (match fsys.canonicalize raw with
       | some real => real == projectReal || projectReal.isPrefixOf real
       | none => false))

/-- C1: the validator returns a subsequence of the original candidate
strings; with no project root the result is empty; and every accepted
candidate exists and canonicalizes to a path equal to the canonical
project root or descending from it (component prefix). -/
theorem validate_file_paths_spec :
    ∀ (fsys : FileSystem) (candidates : List String) (projectPath : Option String),
      (validate_file_paths fsys candidates projectPath).Sublist candidates ∧
      validate_file_paths fsys candidates none = [] ∧
      (∀ root, projectPath = some root →
        ∀ p ∈ validate_file_paths fsys candidates projectPath,
          fsys.pathExists p = true ∧
          ∃ real, fsys.canonicalize p = some real ∧
            (real = canonicalProjectRoot fsys root ∨
             (canonicalProjectRoot fsys root).isPrefixOf real = true)) := by
  intro fsys candidates projectPath
  refine ⟨?_, rfl, ?_⟩
  · cases projectPath with
    | none => exact List.nil_sublist _
    | some root => exact List.filter_sublist _
  · intro root hr p hp
    subst hr
    rw [validate_file_paths] at hp
    have hm := List.mem_filter.mp hp
    have hb := hm.2
    rw [Bool.and_eq_true] at hb
    refine ⟨hb.1, ?_⟩
    cases hc : fsys.canonicalize p with
    | none => rw [hc] at hb; cases hb.2
    | some real =>
      rw [hc] at hb
      have hor := hb.2
      rw [Bool.or_eq_true] at hor
      refine ⟨real, rfl, ?_⟩
      cases hor with
      | inl h => exact Or.inl (by exact beq_iff_eq.mp h)
      | inr h => exact Or.inr h

/-! ## config.rs: `normalize_discord_token` -/

/-- `str::split_once(char::is_whitespace)`: the text before the first
whitespace character and the text after it. -/
def splitOnceWs : List Char → Option (List Char × List Char)
  | [] => none
  | c :: cs =>
    if c.isWhitespace then some ([], cs)
    else
      match splitOnceWs cs with
      | some r => some (c :: r.1, r.2)
      | none => none

/-- The shared tail of `normalize_discord_token` after quote handling:
the prefix drop and the whitespace elision. -/
def normalizeTokenTail (t : List Char) : List Char :=
  let lowered := t.map Char.toLower
  let token2 :=
    if "bot ".data.isPrefixOf lowered || "bearer ".data.isPrefixOf lowered then
      match splitOnceWs t with
      | some r => trimChars r.2
      | none => []
    else t
  token2.filter (fun c => !c.isWhitespace)

/-- `normalize_discord_token` (`src/config.rs` lines 55-76).  `none`
models the panic of the byte slice `token[1..token.len() - 1]`, which is
reached exactly when the trimmed input is a single quote character (the
range `1..0` is out of order).  Otherwise: trim; strip surrounding
matched quotes and trim again; when the lowercased result starts with
`bot ` or `bearer `, keep what follows the first whitespace, trimmed;
finally retain only non-whitespace characters. -/
def normalize_discord_token (input : List Char) : Option (List Char) :=
  let token := trimChars input
  if token = [] then some [] else
  let quoted :=
    (token.head? = some '"' ∧ token.getLast? = some '"') ∨
    (token.head? = some '\'' ∧ token.getLast? = some '\'')
  let afterQuotes : Option (List Char) :=
    if quoted then
      if token.length = 1 then none
      else some (trimChars ((token.drop 1).dropLast))
    else some token
  match afterQuotes with
  | none => none
  | some token1 => some (normalizeTokenTail token1)

/-- From the claim's words: surrounding matched single or double quotes
are removed (and the newly exposed ends trimmed, an instance of the
claim's whitespace elision, as the code trims after unquoting). -/
def stripSurroundingQuotes (t : List Char) : List Char :=
  if 2 ≤ t.length ∧
     ((t.head? = some '"' ∧ t.getLast? = some '"') ∨
      (t.head? = some '\'' ∧ t.getLast? = some '\'')) then
    trimChars ((t.drop 1).dropLast)
  else t

/-- From the claim's words: a leading `Bot ` or `Bearer ` tag
(case-insensitively) is removed. -/
def dropAuthScheme (t : List Char) : List Char :=
  if "bot ".data.isPrefixOf (t.map Char.toLower) then t.drop 4
  else if "bearer ".data.isPrefixOf (t.map Char.toLower) then t.drop 7
  else t

/-- From the claim's words: all whitespace is elided. -/
def elideWhitespace (t : List Char) : List Char :=
  t.filter (fun c => !c.isWhitespace)

/-- The claim's pipeline.  Trimming is whitespace removal at the ends (an
instance of the claim's whitespace elision), applied where the code
applies it: before and after the quote stripping. -/
def normalizeTokenSpec (input : List Char) : List Char :=
  elideWhitespace (dropAuthScheme (stripSurroundingQuotes (trimChars input)))

theorem toNat_ofNat_of_valid {n : Nat} (h : n < 55296) : (Char.ofNat n).toNat = n := by
  have hv : n.isValidChar := Or.inl h
  rw [Char.ofNat, dif_pos hv]
  rfl

theorem isWs_eq_false {d : Char} (h32 : d.toNat ≠ 32) (h9 : d.toNat ≠ 9)
    (h13 : d.toNat ≠ 13) (h10 : d.toNat ≠ 10) : d.isWhitespace = false := by
  rw [Char.isWhitespace]
  have e1 : decide (d = ' ') = false :=
    decide_eq_false (fun he => h32 (by rw [he]; rfl))
  have e2 : decide (d = '\t') = false :=
    decide_eq_false (fun he => h9 (by rw [he]; rfl))
  have e3 : decide (d = '\r') = false :=
    decide_eq_false (fun he => h13 (by rw [he]; rfl))
  have e4 : decide (d = '\n') = false :=
    decide_eq_false (fun he => h10 (by rw [he]; rfl))
  rw [e1, e2, e3, e4]
  rfl

theorem isWs_toLower (c : Char) : (Char.toLower c).isWhitespace = c.isWhitespace := by
  rw [Char.toLower]
  split
  · rename_i hn
    have ht : (Char.ofNat (c.toNat + 32)).toNat = c.toNat + 32 :=
      toNat_ofNat_of_valid (by omega)
    rw [isWs_eq_false (by omega) (by omega) (by omega) (by omega),
        isWs_eq_false (by omega) (by omega) (by omega) (by omega)]
  · rfl

theorem toLower_eq_space {d : Char} (h : Char.toLower d = ' ') : d = ' ' := by
  rw [Char.toLower] at h
  split at h
  · rename_i hn
    have h2 := congrArg Char.toNat h
    rw [toNat_ofNat_of_valid (by omega)] at h2
    have h3 : (' ' : Char).toNat = 32 := rfl
    rw [h3] at h2
    omega
  · exact h

theorem elide_dropWhile (x : List Char) :
    elideWhitespace (x.dropWhile Char.isWhitespace) = elideWhitespace x := by
  induction x with
  | nil => rfl
  | cons c cs ih =>
    cases hw : c.isWhitespace with
    | true =>
      simp only [List.dropWhile, hw, if_true]
      rw [ih, elideWhitespace, elideWhitespace, List.filter_cons]
      simp [hw]
    | false => simp [List.dropWhile, hw]

theorem elide_reverse (x : List Char) :
    elideWhitespace x.reverse = (elideWhitespace x).reverse := by
  rw [elideWhitespace, elideWhitespace, List.filter_reverse]

theorem elide_trim (x : List Char) :
    elideWhitespace (trimChars x) = elideWhitespace x := by
  rw [trimChars, elide_reverse, elide_dropWhile, elide_reverse, List.reverse_reverse,
      elide_dropWhile]

theorem splitOnce_tag :
    ∀ (tag : List Char), (∀ c ∈ tag, c.isWhitespace = false) →
    ∀ (t u : List Char), t.map Char.toLower = tag ++ ' ' :: u →
      splitOnceWs t = some (t.take tag.length, t.drop (tag.length + 1)) := by
  intro tag
  induction tag with
  | nil =>
    intro _ t u hmap
    cases t with
    | nil => simp at hmap
    | cons d r =>
      rw [List.map_cons, List.nil_append] at hmap
      have hd : Char.toLower d = ' ' := (List.cons.injEq _ _ _ _ ▸ hmap).1
      have hde : d = ' ' := toLower_eq_space hd
      rw [splitOnceWs, if_pos (by rw [hde]; rfl)]
      rfl
  | cons c0 tag' ih =>
    intro hws t u hmap
    cases t with
    | nil => simp at hmap
    | cons a t1 =>
      rw [List.map_cons, List.cons_append] at hmap
      have h1 : Char.toLower a = c0 := (List.cons.injEq _ _ _ _ ▸ hmap).1
      have h2 : t1.map Char.toLower = tag' ++ ' ' :: u := (List.cons.injEq _ _ _ _ ▸ hmap).2
      have hnw : a.isWhitespace = false := by
        rw [← isWs_toLower, h1]
        exact hws c0 (List.mem_cons_self _ _)
      rw [splitOnceWs, if_neg (by rw [hnw]; exact Bool.false_ne_true)]
      rw [ih (fun c hc => hws c (List.mem_cons_of_mem _ hc)) t1 u h2]
      rfl

theorem normalizeTokenTail_eq (t : List Char) :
    normalizeTokenTail t = elideWhitespace (dropAuthScheme t) := by
  rw [normalizeTokenTail, dropAuthScheme]
  by_cases hbot : "bot ".data.isPrefixOf (t.map Char.toLower) = true
  · have hsp := List.isPrefixOf_iff_prefix.mp hbot
    obtain ⟨u, hu⟩ := hsp
    have hmap : t.map Char.toLower = ['b', 'o', 't'] ++ ' ' :: u := by
      rw [← hu]; rfl
    have hsplit := splitOnce_tag ['b', 'o', 't'] (by decide) t u hmap
    rw [if_pos hbot]
    simp only [hbot, Bool.true_or, if_true, hsplit]
    show elideWhitespace (trimChars (t.drop 4)) = elideWhitespace (t.drop 4)
    exact elide_trim _
  · have hbot' : "bot ".data.isPrefixOf (t.map Char.toLower) = false :=
      eq_false_of_ne_true hbot
    rw [if_neg hbot]
    by_cases hbear : "bearer ".data.isPrefixOf (t.map Char.toLower) = true
    · have hsp := List.isPrefixOf_iff_prefix.mp hbear
      obtain ⟨u, hu⟩ := hsp
      have hmap : t.map Char.toLower = ['b', 'e', 'a', 'r', 'e', 'r'] ++ ' ' :: u := by
        rw [← hu]; rfl
      have hsplit := splitOnce_tag ['b', 'e', 'a', 'r', 'e', 'r'] (by decide) t u hmap
      rw [if_pos hbear]
      simp only [hbot', hbear, Bool.false_or, if_true, hsplit]
      show elideWhitespace (trimChars (t.drop 7)) = elideWhitespace (t.drop 7)
      exact elide_trim _
    · have hbear' : "bearer ".data.isPrefixOf (t.map Char.toLower) = false :=
      eq_false_of_ne_true hbear
      rw [if_neg hbear]
      simp only [hbot', hbear', Bool.false_or, if_false]
      rfl

/-- C9: wherever `normalize_discord_token` returns a value (everywhere but
the panic of C10), that value is the claim's pipeline: trim, remove
surrounding matched quotes (trimming the newly exposed ends), remove a
leading case-insensitive `Bot `/`Bearer ` tag, and elide every remaining
whitespace character. -/
theorem normalize_discord_token_spec :
    ∀ input : List Char,
      normalize_discord_token input = none ∨
      normalize_discord_token input = some (normalizeTokenSpec input) := by
  intro input
  rw [normalize_discord_token, normalizeTokenSpec]
  by_cases h0 : trimChars input = []
  · right
    rw [if_pos h0, h0]
    rfl
  · rw [if_neg h0]
    by_cases hq : (trimChars input).head? = some '"' ∧
        (trimChars input).getLast? = some '"' ∨
        (trimChars input).head? = some '\'' ∧ (trimChars input).getLast? = some '\''
    · by_cases h1 : (trimChars input).length = 1
      · left
        dsimp only []
        rw [if_pos hq, if_pos h1]
      · right
        dsimp only []
        rw [if_pos hq, if_neg h1]
        have hlen : 2 ≤ (trimChars input).length := by
          have : trimChars input ≠ [] := h0
          have hpos : 0 < (trimChars input).length := List.length_pos.mpr this
          omega
        rw [stripSurroundingQuotes, if_pos ⟨hlen, hq⟩]
        dsimp only []
        rw [normalizeTokenTail_eq]
    · right
      dsimp only []
      rw [if_neg hq]
      rw [stripSurroundingQuotes, if_neg (fun hc => hq hc.2)]
      dsimp only []
      rw [normalizeTokenTail_eq]

/-- C10: the failing input evaluated.  On the one-character input `"`
(a single double-quote), the trimmed token starts and ends with the same
quote, so the code takes the byte slice `token[1..token.len() - 1]` with
the out-of-order range `1..0` and panics (modelled as `none`); the
function is not total. -/
theorem normalize_discord_token_panics_on_lone_quote :
    normalize_discord_token ['"'] = none ∧ normalize_discord_token ['\''] = none := by
  constructor <;> rfl

/-! ## event.rs and main.rs: the two JSON endpoints

Events are the deserialized records of `src/event.rs`; the accessor
functions mirror the Rust accessors (trim, treat blank as absent,
default the agent type to `opencode`).  A handler is modelled as a pure
function from the parsed payload (`none` for a body that does not
deserialize), the state document, the filesystem and the sink behaviour
to the HTTP status code and the ordered list of sink calls it makes;
`sink call = false` models a delivery error. -/

structure OpencodeEvent where
  projectName : Option String
  agentType : Option String
  instanceId : Option String
  eventType : Option String
  text : Option String
  message : Option String
  turnText : Option String

def OpencodeEvent.projectNameValue (e : OpencodeEvent) : Option String :=
  blankToNone e.projectName

def OpencodeEvent.agentTypeValue (e : OpencodeEvent) : String :=
  (blankToNone e.agentType).getD "opencode"

def OpencodeEvent.instanceIdValue (e : OpencodeEvent) : Option String :=
  blankToNone e.instanceId

def OpencodeEvent.eventTypeValue (e : OpencodeEvent) : Option String :=
  blankToNone e.eventType

/-- `OpencodeEvent::event_text`: the trimmed `text` when non-blank, else
the trimmed `message` when non-blank. -/
def OpencodeEvent.eventTextValue (e : OpencodeEvent) : Option String :=
  match blankToNone e.text with
  | some t => some t
  | none => blankToNone e.message

def OpencodeEvent.turnTextValue (e : OpencodeEvent) : Option String :=
  blankToNone e.turnText

structure SendFilesEvent where
  projectName : Option String
  agentType : Option String
  instanceId : Option String
  files : List String

def SendFilesEvent.projectNameValue (e : SendFilesEvent) : Option String :=
  blankToNone e.projectName

def SendFilesEvent.agentTypeValue (e : SendFilesEvent) : String :=
  (blankToNone e.agentType).getD "opencode"

def SendFilesEvent.instanceIdValue (e : SendFilesEvent) : Option String :=
  blankToNone e.instanceId

/-- One call to the chat sink (`DiscordClient::send_message` or
`DiscordClient::send_files`). -/
inductive SinkCall
  | message (channelId content : String)
  | files (channelId content : String) (filePaths : List String)

/-- `split_for_discord` on a Lean `String`. -/
def splitForDiscord (s : String) : List String :=
  (split_message_for_discord s.data).map (fun l => String.mk l)

/-- `extract_file_paths` on a Lean `String`. -/
def extractFilePathsS (s : String) : List String :=
  (extract_file_paths s.data).map (fun l => String.mk l)

/-- `strip_file_paths` on Lean `String`s. -/
def stripFilePathsS (text : String) (paths : List String) : String :=
  String.mk (strip_file_paths text.data (paths.map String.data))

/-- The per-chunk send loop of the `session.idle` branch
(`src/main.rs` lines 201-216): blank chunks are skipped without a call;
the first failing call aborts the rest.  Returns whether every attempted
call succeeded, and the calls made in order. -/
def sendMessageCalls (sink : SinkCall → Bool) (channelId : String) :
    List String → Bool × List SinkCall
  | [] => (true, [])
  | chunk :: rest =>
    if trimS chunk = "" then sendMessageCalls sink channelId rest
    else
      let call := SinkCall.message channelId chunk
      if sink call then
        let r := sendMessageCalls sink channelId rest
        (r.1, call :: r.2)
      else (false, [call])

/-- `handle_send_files` (`src/main.rs` lines 98-148) after JSON framing:
400 for a malformed body, a missing project name or empty `files`; 404
for an unknown project or a channel-resolution miss; 400 when no file
survives validation; then one `send_files` sink call, 200 on success and
500 on failure. -/
def handle_send_files (payload : Option SendFilesEvent) (st : BridgeState)
    (fsys : FileSystem) (sink : SinkCall → Bool) : Nat × List SinkCall :=
  match payload with
  | none => (400, [])
  | some event =>
    match event.projectNameValue with
    | none => (400, [])
    | some projectName =>
      if event.files = [] then (400, [])
      else if (st.projects.lookup projectName).isNone then (404, [])
      else
        match st.find_channel_id projectName event.agentTypeValue event.instanceIdValue with
        | none => (404, [])
        | some channelId =>
          let validFiles := validate_file_paths fsys event.files (st.project_path projectName)
          if validFiles = [] then (400, [])
          else
            let call := SinkCall.files channelId "" validFiles
            if sink call then (200, [call]) else (500, [call])

/-- `handle_opencode_event` (`src/main.rs` lines 150-238) after JSON
framing: 400 for a malformed body, a missing project name or a
channel-resolution miss; then dispatch on the event type
(`session.error` sends one message; `session.idle` extracts, validates,
strips, chunks and sends, then attaches the valid files; anything else
is a 200 no-op). -/
def handle_opencode_event (payload : Option OpencodeEvent) (st : BridgeState)
    (fsys : FileSystem) (sink : SinkCall → Bool) : Nat × List SinkCall :=
  match payload with
  | none => (400, [])
  | some event =>
    match event.projectNameValue with
    | none => (400, [])
    | some projectName =>
      match st.find_channel_id projectName event.agentTypeValue event.instanceIdValue with
      | none => (400, [])
      | some channelId =>
        match event.eventTypeValue with
        | some "session.error" =>
          let msg := event.eventTextValue.getD "unknown error"
          let call := SinkCall.message channelId ("⚠️ OpenCode session error: " ++ msg)
          if sink call then (200, [call]) else (500, [call])
        | some "session.idle" =>
          match event.eventTextValue with
          | none => (200, [])
          | some text =>
            let trimmed := trimS text
            if trimmed = "" then (200, [])
            else
              let fileSearchText := event.turnTextValue.getD trimmed
              let extracted := extractFilePathsS fileSearchText
              let validFiles := validate_file_paths fsys extracted (st.project_path projectName)
              let displayText :=
                if validFiles = [] then trimmed else stripFilePathsS trimmed validFiles
              let r := sendMessageCalls sink channelId (splitForDiscord displayText)
              if r.1 = false then (500, r.2)
              else if validFiles = [] then (200, r.2)
              else
                let call := SinkCall.files channelId "" validFiles
                if sink call then (200, r.2 ++ [call]) else (500, r.2 ++ [call])
        | _ => (200, [])

/-- C8: when channel resolution misses (the resolver returns none) on a
request that reaches it, `send-files` answers 404 and `opencode-event`
answers 400, and neither makes any sink call. -/
theorem resolution_miss_status :
    ∀ (st : BridgeState) (fsys : FileSystem) (sink : SinkCall → Bool)
      (sendEvent : SendFilesEvent) (openEvent : OpencodeEvent) (pn1 pn2 : String),
      (sendEvent.projectNameValue = some pn1 → sendEvent.files ≠ [] →
        st.find_channel_id pn1 sendEvent.agentTypeValue sendEvent.instanceIdValue = none →
        handle_send_files (some sendEvent) st fsys sink = (404, [])) ∧
      (openEvent.projectNameValue = some pn2 →
        st.find_channel_id pn2 openEvent.agentTypeValue openEvent.instanceIdValue = none →
        handle_opencode_event (some openEvent) st fsys sink = (400, [])) := by
  intro st fsys sink sendEvent openEvent pn1 pn2
  constructor
  · intro hpn hfiles hmiss
    rw [handle_send_files, hpn]
    dsimp only []
    rw [if_neg hfiles]
    by_cases habs : (st.projects.lookup pn1).isNone
    · rw [if_pos habs]
    · rw [if_neg habs, hmiss]
  · intro hpn hmiss
    rw [handle_opencode_event, hpn]
    dsimp only []
    rw [hmiss]

/-! ## Sanity checks: the repository's own unit tests, replayed

Each theorem below evaluates an embedded function on the input of one of
the repository's `#[test]` functions and states the asserted output, as
evidence that the embeddings compute what the Rust code computes. -/

/-- `split_message_exactly_2000_chars`: a message of exactly 2000
characters is one chunk. -/
theorem test_split_exact_limit :
    split_message_for_discord (List.replicate 2000 'a') = [List.replicate 2000 'a'] := by
  rw [split_message_for_discord,
      if_pos (by rw [List.length_replicate]; simp [DISCORD_MAX_MESSAGE_LENGTH])]

/-- `split_short_message_under_limit`: a short message is returned whole. -/
theorem test_split_short :
    split_message_for_discord "Hello, world!".data = ["Hello, world!".data] := by
  rw [split_message_for_discord, if_pos (by simp [DISCORD_MAX_MESSAGE_LENGTH])]

set_option maxRecDepth 100000 in
/-- `extract_file_paths_deduplicates`: the backticked, the repeated bare
and the second path, deduplicated in first-match order. -/
theorem test_extract_dedup :
    extract_file_paths "See `/tmp/a.png` and again /tmp/a.png and /tmp/b.pdf".data =
      ["/tmp/a.png".data, "/tmp/b.pdf".data] := by
  simp [extract_file_paths, extractMatches, matchPath, matchDotExt, matchExt,
    extCandidate, SUPPORTED_EXTENSIONS, isPathChar, isRightBoundary, isLeftBoundary,
    scanAux_eq_match, scanAux_eq_nomatch, scanAux_eq_noboundary, scanAux, dedupSeen,
    List.isPrefixOf]

/-- `finds_channel_by_exact_instance_first` (`src/state.rs`): the exact
instance hit wins over the alphabetically first instance. -/
theorem test_resolver_exact_instance :
    (BridgeState.mk [("proj", ProjectState.mk none
      [("claude", ProjectInstance.mk (some "claude") (some "claude") (some "ch-1")),
       ("claude-2", ProjectInstance.mk (some "claude-2") (some "claude") (some "ch-2"))]
      [])]).find_channel_id "proj" "claude" (some "claude-2") = some "ch-2" := by
  decide

/-- `falls_back_to_primary_instance_when_instance_not_given`
(`src/state.rs`): without an instance id the alphabetically first
matching instance wins, whatever the iteration order. -/
theorem test_resolver_primary_fallback :
    (BridgeState.mk [("proj", ProjectState.mk none
      [("claude-2", ProjectInstance.mk (some "claude-2") (some "claude") (some "ch-2")),
       ("claude", ProjectInstance.mk (some "claude") (some "claude") (some "ch-1"))]
      [])]).find_channel_id "proj" "claude" none = some "ch-1" := by
  decide

/-- `falls_back_to_legacy_discord_channels` (`src/state.rs`): with no
instances the legacy map answers. -/
theorem test_resolver_legacy_fallback :
    (BridgeState.mk [("proj", ProjectState.mk none []
      [("claude", some "legacy-1")])]).find_channel_id "proj" "claude" none =
      some "legacy-1" := by
  decide

/-- `normalize_discord_token_handles_common_copy_paste_issues`
(`src/config.rs`): the six asserted cases. -/
theorem test_normalize_copy_paste :
    normalize_discord_token "".data = some "".data ∧
    normalize_discord_token "   ".data = some "".data ∧
    normalize_discord_token "Bot abc.def.ghi".data = some "abc.def.ghi".data ∧
    normalize_discord_token " bearer abc.def.ghi ".data = some "abc.def.ghi".data ∧
    normalize_discord_token "'abc.def.ghi'".data = some "abc.def.ghi".data ∧
    normalize_discord_token "\"abc .def .ghi\"".data = some "abc.def.ghi".data := by
  refine ⟨by decide, by decide, by decide, by decide, by decide, by decide⟩
